import Mathlib

/-!
Verification development for the Embroider v2 addon blueprint (`index.js`).

The blueprint's data and operations are shallowly embedded below:

* JSON values (`Json`) with the recursive merge of the `lodash` dependency
  (`jsonMerge`), the canonical package-manifest key sort of the
  `sort-package-json` dependency (`sortPackageJson`), 2-space-indented
  serialization in the style of `JSON.stringify(v, undefined, 2)`
  (`stringify`), and the manifest patcher `updateTestAppPackageJson`.
* A file-system model at entry granularity (paths as segment lists) with the
  recursive overwrite-copy and recursive remove used by
  `overrideTestAppFiles`.
* JavaScript option records (`OptRec`, association lists of `JSVal`) with the
  option surgery performed by `afterInstall` (`withoutAddonOptions`,
  `appOptions`), and the external-command trace of `afterInstall`.
* Typed CLI options (`Options`) with `addonInfoFromOptions`,
  `testAppInfoFromOptions`, and the `blueprintOptions` fragment of `locals`.
* The `normalizeEntityName` hook guard.
-/

/-- A JSON value, as read from and written to `package.json` files. -/
inductive Json where
  | null
  | bool (b : Bool)
  | num (n : Int)
  | str (s : String)
  | arr (elems : List Json)
  | obj (fields : List (String × Json))

/-- First value stored under key `k` in an association list of JSON fields
(JavaScript property lookup; parsed JSON objects have unique keys). -/
def findEntry (l : List (String × Json)) (k : String) : Option Json :=
  (l.find? (fun e => e.1 == k)).map (fun e => e.2)

/-- Plain property assignment `fields[k] = v`: the first existing entry with
the key is replaced, a missing key is appended. -/
def setField : List (String × Json) → String → Json → List (String × Json)
  | [], k, v => [(k, v)]
  | e :: rest, k, v => if e.1 == k then (k, v) :: rest else e :: setField rest k v

mutual

/-- The recursive merge of the `lodash` dependency, `merge(dst, src)`:
objects merge key by key, arrays merge index by index, and otherwise the
source value wins.  The fragment (source) keys win on conflicts. -/
def jsonMerge : Json → Json → Json
  | Json.obj a, Json.obj b => Json.obj (mergeFields a b)
  | Json.arr xs, Json.arr ys => Json.arr (mergeList xs ys)
  | _, src => src
termination_by d s => sizeOf s
decreasing_by all_goals simp_wf <;> omega

/-- Iterate the source fields left to right, assigning each into the
destination field list (JavaScript property iteration order): an existing
key is merged in place, a missing key is appended. -/
def mergeFields : List (String × Json) → List (String × Json) → List (String × Json)
  | a, [] => a
  | a, (k, w) :: rest =>
      mergeFields
        (match findEntry a k with
         | some v => setField a k (jsonMerge v w)
         | none => a ++ [(k, w)]) rest
termination_by a b => sizeOf b
decreasing_by all_goals simp_wf <;> omega

/-- Index-wise array merge (the `lodash` behaviour for two arrays): common
positions merge recursively, the longer array's tail survives. -/
def mergeList : List Json → List Json → List Json
  | xs, [] => xs
  | [], ys => ys
  | x :: xs, y :: ys => jsonMerge x y :: mergeList xs ys
termination_by xs ys => sizeOf ys
decreasing_by all_goals simp_wf <;> omega

end

/-- Assignment of one source field into the destination field list. -/
def mergeOne (a : List (String × Json)) (k : String) (w : Json) : List (String × Json) :=
  match findEntry a k with
  | some v => setField a k (jsonMerge v w)
  | none => a ++ [(k, w)]

/-- Keys of a field list are pairwise distinct (true of any parsed JSON). -/
def nodupKeys : List (String × Json) → Bool
  | [] => true
  | e :: rest => !(rest.any (fun f => f.1 == e.1)) && nodupKeys rest

mutual

/-- Well-formed JSON: every object in the value has pairwise distinct keys
(the shape `JSON.parse` and `require` always produce). -/
def jsonWF : Json → Bool
  | Json.obj b => nodupKeys b && fieldsWF b
  | Json.arr xs => listWF xs
  | _ => true

/-- All field values are well-formed. -/
def fieldsWF : List (String × Json) → Bool
  | [] => true
  | (_, v) :: rest => jsonWF v && fieldsWF rest

/-- All elements are well-formed. -/
def listWF : List Json → Bool
  | [] => true
  | x :: rest => jsonWF x && listWF rest

end

/-- Modelled from the spec: the canonical key order used by the
`sort-package-json` dependency (not part of `src/`); known manifest keys
come first in this fixed order, unknown keys after them alphabetically. -/
def pkgKeyOrder : List String :=
  ["name", "version", "private", "description", "keywords", "repository",
   "license", "author", "files", "scripts", "dependencies",
   "devDependencies", "peerDependencies", "engines", "volta"]

/-- Rank of a manifest key in the canonical order. -/
def keyRank (k : String) : Nat :=
  match pkgKeyOrder.indexOf? k with
  | some i => i
  | none => pkgKeyOrder.length

/-- Comparator of the canonical package-manifest key sort. -/
def keyLe (a b : String) : Bool :=
  Nat.blt (keyRank a) (keyRank b) || (keyRank a == keyRank b && decide (a ≤ b))

/-- Insert a field into a key-sorted field list. -/
def insertField (e : String × Json) : List (String × Json) → List (String × Json)
  | [] => [e]
  | f :: rest => if keyLe e.1 f.1 then e :: f :: rest else f :: insertField e rest

/-- Sort a field list by the canonical key order (insertion sort). -/
def sortFields : List (String × Json) → List (String × Json)
  | [] => []
  | e :: rest => insertField e (sortFields rest)

/-- Modelled from the spec: `sort-package-json` (not part of `src/`) —
deterministic canonical key sort of the manifest's top-level keys. -/
def sortPackageJson : Json → Json
  | Json.obj fields => Json.obj (sortFields fields)
  | j => j

/-- Escape one character for a JSON string literal. -/
def escapeChar (c : Char) : String :=
  if c = '"' then "\\\""
  else if c = '\\' then "\\\\"
  else if c = '\n' then "\\n"
  else if c = '\t' then "\\t"
  else if c = '\r' then "\\r"
  else String.singleton c

/-- A JSON string literal. -/
def quoteStr (s : String) : String :=
  "\"" ++ String.join (s.toList.map escapeChar) ++ "\""

mutual

/-- `JSON.stringify(v, undefined, 2)` at surrounding indentation `ind`:
2-space-indented pretty printing. -/
def stringify : String → Json → String
  | _, Json.null => "null"
  | _, Json.bool b => if b then "true" else "false"
  | _, Json.num n => toString n
  | _, Json.str s => quoteStr s
  | _, Json.arr [] => "[]"
  | ind, Json.arr (x :: xs) =>
      "[\n" ++ stringifyItems (ind ++ "  ") (x :: xs) ++ "\n" ++ ind ++ "]"
  | _, Json.obj [] => "\x7b\x7d"
  | ind, Json.obj (f :: fs) =>
      "\x7b\n" ++ stringifyFields (ind ++ "  ") (f :: fs) ++ "\n" ++ ind ++ "\x7d"
termination_by i j => sizeOf j
decreasing_by all_goals simp_wf <;> omega

/-- Array items, one per line, comma separated. -/
def stringifyItems : String → List Json → String
  | _, [] => ""
  | ind, [x] => ind ++ stringify ind x
  | ind, x :: xs => ind ++ stringify ind x ++ ",\n" ++ stringifyItems ind xs
termination_by i l => sizeOf l
decreasing_by all_goals simp_wf <;> omega

/-- Object fields, one per line, comma separated. -/
def stringifyFields : String → List (String × Json) → String
  | _, [] => ""
  | ind, [(k, v)] => ind ++ quoteStr k ++ ": " ++ stringify ind v
  | ind, (k, v) :: fs =>
      ind ++ quoteStr k ++ ": " ++ stringify ind v ++ ",\n" ++ stringifyFields ind fs
termination_by i l => sizeOf l
decreasing_by all_goals simp_wf <;> omega

end

/-- `pkg.devDependencies[nm] = '^0.0.0'` (strict mode): succeeds when the
manifest is an object whose `devDependencies` is an object, otherwise the
assignment raises (`TypeError`), modelled as `none`. -/
def setDevDep (pkg : Json) (nm : String) : Option Json :=
  match pkg with
  | Json.obj fields =>
      match findEntry fields "devDependencies" with
      | some (Json.obj deps) =>
          some (Json.obj (setField fields "devDependencies"
            (Json.obj (setField deps nm (Json.str "^0.0.0")))))
      | _ => none
  | _ => none

/-- A store of JSON files: path to parsed content, `some none` standing for
a present but unparseable file. -/
def lookupFile (fs : List (String × Option Json)) (p : String) : Option (Option Json) :=
  (fs.find? (fun e => e.1 == p)).map (fun e => e.2)

/-- `updateTestAppPackageJson` from `index.js`: `require` the manifest,
`merge(pkg, additions)` (the bundled fragment `additions` wins), set
`devDependencies[addonName] = '^0.0.0'`, write
`JSON.stringify(sortPackageJson(pkg), undefined, 2)` back to the same path.
`writeOk` models the fallibility of `fs.writeFile`; every failure
propagates as an error. -/
def updateTestAppPackageJson (additions : Json) (addonName : String) (writeOk : Bool)
    (path : String) (fs : List (String × Option Json)) : Except String (String × String) :=
  match lookupFile fs path with
  | none => Except.error "read error: no such file"
  | some none => Except.error "parse error: invalid JSON"
  | some (some pkg) =>
      let merged := jsonMerge pkg additions
      match setDevDep merged addonName with
      | none => Except.error "TypeError: cannot add property to devDependencies"
      | some pkg2 =>
          if writeOk then Except.ok (path, stringify "" (sortPackageJson pkg2))
          else Except.error "write error"

/-- Follows the spec's words (refinement reference): deep-merge the fixed
bundled fragment into the manifest with fragment keys winning, set the
addon's dev-dependency entry to the exact string caret-0.0.0, then
serialize with the canonical package-manifest key sort and 2-space
indentation. -/
def specManifestPatch (additions : Json) (addonName : String) (pkg : Json) : Option String :=
  (setDevDep (jsonMerge pkg additions) addonName).map
    (fun j => stringify "" (sortPackageJson j))

/-- A file-system path, as a list of segments. -/
abbrev FPath := List String

/-- A file store: path to file content, first entry wins on lookup. -/
abbrev FS := List (FPath × String)

/-- Directory (or equal-path) containment: `d` is a leading segment list
of `p`. -/
def pathLe : FPath → FPath → Bool
  | [], _ => true
  | _, [] => false
  | a :: as, b :: bs => a == b && pathLe as bs

/-- Content stored at a path. -/
def fsGet (fs : FS) (p : FPath) : Option String :=
  (fs.find? (fun e => decide (e.1 = p))).map (fun e => e.2)

/-- The relocated entries produced by `fs.copy(src, dst)`: every file
strictly inside `src` reappears at the same relative path inside `dst`. -/
def copyEntries (src dst : FPath) (fs : FS) : FS :=
  fs.filterMap (fun e =>
    if pathLe src e.1 && Nat.blt src.length e.1.length then
      some (dst ++ e.1.drop src.length, e.2)
    else none)

/-- `fs.copy(src, dst, overwrite)`: the relocated entries shadow any
same-path destination file (first entry wins on lookup). -/
def fsCopy (src dst : FPath) (fs : FS) : FS :=
  copyEntries src dst fs ++ fs

/-- `fs.remove(d)`: recursive removal of the directory and everything in
it. -/
def fsRemove (d : FPath) (fs : FS) : FS :=
  fs.filter (fun e => !(pathLe d e.1))

/-- `overrideTestAppFiles(testAppPath, overridesPath)` from `index.js`:
`await fs.copy(overridesPath, testAppPath, overwrite)` and, only after the
copy resolved, `await fs.remove(overridesPath)`.  A copy failure is
injected by `fault = some k`: the copy stops after relocating `k` entries
and the whole operation rejects in the intermediate state, the remove
never running. -/
def overrideTestAppFiles (fault : Option Nat) (testAppPath overridesPath : FPath)
    (fs : FS) : Except FS FS :=
  match fault with
  | some k => Except.error ((copyEntries overridesPath testAppPath fs).take k ++ fs)
  | none => Except.ok (fsRemove overridesPath (fsCopy overridesPath testAppPath fs))

/-- A JavaScript value carried by a CLI option record. -/
inductive JSVal where
  | undef
  | nullv
  | bool (b : Bool)
  | num (n : Int)
  | str (s : String)
  | obj (fields : List (String × JSVal))

/-- JavaScript truthiness. -/
def jsTruthy : JSVal → Bool
  | JSVal.undef => false
  | JSVal.nullv => false
  | JSVal.bool b => b
  | JSVal.num n => !(n == 0)
  | JSVal.str s => !(s == "")
  | JSVal.obj _ => true

/-- A JavaScript option record (object), keys unique, insertion ordered. -/
abbrev OptRec := List (String × JSVal)

/-- Property lookup on an option record. -/
def jsGet (o : OptRec) (k : String) : Option JSVal :=
  (o.find? (fun e => e.1 == k)).map (fun e => e.2)

/-- Property read defaulting to `undefined` for a missing key. -/
def jsGetD (o : OptRec) (k : String) : JSVal :=
  (jsGet o k).getD JSVal.undef

/-- Property assignment on an option record; the record is only ever read
through `jsGet`, so key order is irrelevant and the new binding is placed
in front. -/
def objSet (o : OptRec) (k : String) (v : JSVal) : OptRec :=
  (k, v) :: o.filter (fun e => !(e.1 == k))

/-- `ADDON_OPTIONS` from `index.js`: the options consumed by the addon
blueprint itself, to be stripped before invoking the app blueprint. -/
def ADDON_OPTIONS : List String :=
  ["addonLocation", "testAppLocation", "testAppName", "releaseIt"]

/-- `withoutAddonOptions(options)` from `index.js`: copy every entry whose
key is not in `ADDON_OPTIONS`. -/
def withoutAddonOptions (o : OptRec) : OptRec :=
  o.filter (fun e => !(ADDON_OPTIONS.contains e.1))

/-- String value of an option that the CLI supplies as a string (or not at
all). -/
def optStr (o : OptRec) (k : String) : Option String :=
  match jsGet o k with
  | some (JSVal.str s) => some s
  | _ => none

/-- String value of an option, empty when absent. -/
def getStr (o : OptRec) (k : String) : String :=
  (optStr o k).getD ""

/-- JavaScript `a || b` on a string option: the default wins exactly when
the supplied value is falsy (absent or empty). -/
def strOr (v : Option String) (d : String) : String :=
  match v with
  | some s => if s == "" then d else s
  | none => d

/-- `path.join` on already-normalized relative segments. -/
def pathJoin (a b : String) : String := a ++ "/" ++ b

/-- Raw test-app name: `options.testAppName || 'test-app'`. -/
def testAppNameRaw (o : OptRec) : String :=
  strOr (optStr o "testAppName") "test-app"

/-- Test-app location: `options.testAppLocation || dasherize(name)`. -/
def testAppLocOf (dasherize : String → String) (o : OptRec) : String :=
  strOr (optStr o "testAppLocation") (dasherize (testAppNameRaw o))

/-- `path.join(options.target, testAppInfo.location)` from `afterInstall`. -/
def testAppPathOf (dasherize : String → String) (o : OptRec) : String :=
  pathJoin (getStr o "target") (testAppLocOf dasherize o)

/-- The `appOptions` object literal built by `afterInstall`: spread of
`withoutAddonOptions(options)`, then the overriding keys in source order. -/
def appOptions (dasherize : String → String) (o : OptRec) : OptRec :=
  let raw := testAppNameRaw o
  objSet (objSet (objSet (objSet (objSet (objSet (objSet (objSet
    (withoutAddonOptions o)
    "target" (JSVal.str (testAppPathOf dasherize o)))
    "skipNpm" (JSVal.bool true))
    "skipGit" (JSVal.bool true))
    "entity" (JSVal.obj [("name", JSVal.str raw)]))
    "name" (JSVal.str raw))
    "rawName" (JSVal.str raw))
    "ciProvider" (JSVal.str "travis"))
    "welcome" (JSVal.bool false)

/-- One task started by `afterInstall` after the nested app blueprint
install: the three unconditional file tasks and the conditional external
process invocations (`execa`). -/
inductive InstallTask where
  | updatePkg (path : String)
  | overrideFiles (dst src : String)
  | unlink (path : String)
  | exec (cmd : String) (args : List String) (cwd : String)

/-- The task list of `afterInstall` (lines 45-71 of `index.js`): manifest
patch, override relocation and CI-config unlink always; the vitest
scaffold command only under `options.vitest`; the release-it setup command
only under `options.releaseIt`. -/
def afterInstallTasks (dasherize : String → String) (o : OptRec) : List InstallTask :=
  let tgt := getStr o "target"
  let tPath := testAppPathOf dasherize o
  [InstallTask.updatePkg (pathJoin tPath "package.json"),
   InstallTask.overrideFiles (testAppLocOf dasherize o) (pathJoin tgt "test-app-overrides"),
   InstallTask.unlink (pathJoin tPath ".travis.yml")]
  ++ (if jsTruthy (jsGetD o "vitest") then
        [InstallTask.exec "ember" ["new", "tests", "-b", "vitest-blueprint", "--skip-git", "--skip-npm"] tgt]
      else [])
  ++ (if jsTruthy (jsGetD o "releaseIt") then
        [InstallTask.exec "create-rwjblue-release-it-setup" ["--no-install"] tgt]
      else [])

/-- Is a task an external process invocation? -/
def isExec : InstallTask → Bool
  | InstallTask.exec _ _ _ => true
  | _ => false

/-- The external process invocations issued by `afterInstall`. -/
def execaCalls (dasherize : String → String) (o : OptRec) : List InstallTask :=
  (afterInstallTasks dasherize o).filter isExec

/-- The typed CLI options consumed by the blueprint: boolean flags and
string options, each possibly absent (`undefined`). -/
structure Options where
  entityName : String
  target : String
  addonLocation : Option String
  testAppLocation : Option String
  testAppName : Option String
  ciProvider : Option String
  welcome : Option Bool
  yarn : Option Bool
  vitest : Option Bool
  releaseIt : Option Bool

/-- Truthiness of an optional boolean flag. -/
def obTruthy : Option Bool → Bool
  | some b => b
  | none => false

/-- Truthiness of an optional string option. -/
def osTruthy : Option String → Bool
  | some s => !(s == "")
  | none => false

/-- The name variants of the addon. -/
structure NameInfo where
  dashed : String
  classified : String
  raw : String

/-- `AddonInfo` as returned by `addonInfoFromOptions`. -/
structure AddonInfo where
  name : NameInfo
  entity : String
  location : String

/-- The name variants of the test-app. -/
structure TestAppNameInfo where
  dashed : String
  raw : String

/-- `TestAppInfo` as returned by `testAppInfoFromOptions`. -/
structure TestAppInfo where
  name : TestAppNameInfo
  location : String

/-- `addonInfoFromOptions(options)` from `index.js`; `dasherize` and
`classify` are the pure name derivations of the external
`ember-cli-string-utils` dependency. -/
def addonInfoFromOptions (dasherize classify : String → String) (o : Options) : AddonInfo :=
  let addonRawName := o.entityName
  let dashedName := dasherize addonRawName
  AddonInfo.mk
    (NameInfo.mk dashedName (classify addonRawName) addonRawName)
    addonRawName
    (strOr o.addonLocation dashedName)

/-- `testAppInfoFromOptions(options)` from `index.js`. -/
def testAppInfoFromOptions (dasherize : String → String) (o : Options) : TestAppInfo :=
  let name := strOr o.testAppName "test-app"
  let dashedName := dasherize name
  TestAppInfo.mk (TestAppNameInfo.mk dashedName name) (strOr o.testAppLocation dashedName)

/-- `hasOptions` from `locals`:
`options.welcome || options.yarn || options.ciProvider`. -/
def hasOptionsB (o : Options) : Bool :=
  obTruthy o.welcome || obTruthy o.yarn || osTruthy o.ciProvider

/-- The `indent` template string of `locals`: a newline and 12 spaces. -/
def indentStr : String := "\n            "

/-- The `outdent` template string of `locals`: a newline and 10 spaces. -/
def outdentStr : String := "\n          "

/-- The `.join` separator of `locals`: a comma, newline and 12 spaces. -/
def flagSep : String := ",\n            "

/-- The array of optional flag entries built by `locals`: each element is
`options.x && '--x flag text'`, falsy elements to be dropped by
`.filter(Boolean)`. -/
def flagItems (o : Options) : List (Option String) :=
  [if obTruthy o.welcome then some "\"--welcome\"" else none,
   if obTruthy o.yarn then some "\"--yarn\"" else none,
   if obTruthy o.vitest then some "\"--vitest\"" else none,
   if osTruthy o.ciProvider then
     some ("\"--ci-provider=" ++ (o.ciProvider.getD "") ++ "\"") else none,
   if osTruthy o.addonLocation then
     some ("\"--addon-location=" ++ (o.addonLocation.getD "") ++ "\"") else none,
   if osTruthy o.testAppLocation then
     some ("\"--test-app-location=" ++ (o.testAppLocation.getD "") ++ "\"") else none,
   if osTruthy o.testAppName then
     some ("\"--test-app-name=" ++ (o.testAppName.getD "") ++ "\"") else none,
   if obTruthy o.releaseIt then some "\"--release-it\"" else none]

/-- The flag entries surviving `.filter(Boolean)`. -/
def flagEntries (o : Options) : List String :=
  (flagItems o).filterMap id

/-- The `blueprintOptions` text fragment of `locals`: empty without
`hasOptions`, otherwise the indented, comma-joined flag block. -/
def blueprintOptions (o : Options) : String :=
  if hasOptionsB o then
    indentStr ++ String.intercalate flagSep (flagEntries o) ++ outdentStr
  else ""

/-- The project state queried by the `normalizeEntityName` hook. -/
structure Project where
  isEmberCLIProject : Bool
  isEmberCLIAddon : Bool

/-- The `normalizeEntityName` hook of the blueprint: normalize the raw name
(through the external `ember-cli-normalize-entity-name` dependency,
abstracted as `normalize`), then fail with a `SilentError` when the
current project is an ember-cli project that is not itself an addon.  The
hook performs no state change: it only reads the project and returns or
throws. -/
def normalizeEntityNameHook (normalize : String → String) (project : Project)
    (entityName : String) : Except String String :=
  let e := normalize entityName
  if project.isEmberCLIProject && !project.isEmberCLIAddon then
    Except.error "Generating an addon in an existing ember-cli project is not supported."
  else
    Except.ok e

lemma jsGet_nil (k : String) : jsGet [] k = none := rfl

lemma jsGet_cons (e : String × JSVal) (o : OptRec) (k : String) :
    jsGet (e :: o) k = if e.1 = k then some e.2 else jsGet o k := by
  rcases e with ⟨k1, v⟩
  by_cases h : k1 = k
  · subst h
    simp [jsGet, List.find?]
  · have hb : (k1 == k) = false := by simpa using h
    simp [jsGet, List.find?, hb, h]

lemma jsGet_filter_keep (o : OptRec) (P : String × JSVal → Bool) (k : String)
    (h : ∀ v, P (k, v) = true) : jsGet (o.filter P) k = jsGet o k := by
  induction o with
  | nil => rfl
  | cons e rest ih =>
    rcases e with ⟨k1, v⟩
    by_cases hk : k1 = k
    · subst hk
      rw [List.filter_cons, h v]
      simp [jsGet_cons]
    · cases hp : P (k1, v) with
      | true =>
        rw [List.filter_cons, hp]
        simp [jsGet_cons, hk, ih]
      | false =>
        rw [List.filter_cons, hp]
        simp [jsGet_cons, hk, ih]

lemma jsGet_filter_drop (o : OptRec) (P : String × JSVal → Bool) (k : String)
    (h : ∀ v, P (k, v) = false) : jsGet (o.filter P) k = none := by
  induction o with
  | nil => rfl
  | cons e rest ih =>
    rcases e with ⟨k1, v⟩
    by_cases hk : k1 = k
    · subst hk
      rw [List.filter_cons, h v]
      simpa using ih
    · cases hp : P (k1, v) with
      | true =>
        rw [List.filter_cons, hp]
        simpa [jsGet_cons, hk] using ih
      | false =>
        rw [List.filter_cons, hp]
        simpa using ih

lemma jsGet_objSet (o : OptRec) (k k' : String) (v : JSVal) :
    jsGet (objSet o k v) k' = if k' = k then some v else jsGet o k' := by
  unfold objSet
  by_cases h : k' = k
  · subst h
    simp [jsGet_cons]
  · rw [jsGet_cons]
    have hne : ¬(k = k') := fun hh => h hh.symm
    simp only [hne, if_false, h, if_false]
    apply jsGet_filter_keep
    intro w
    simpa using h

lemma jsGet_withoutAddonOptions_strip (o : OptRec) (k : String)
    (h : ADDON_OPTIONS.contains k = true) : jsGet (withoutAddonOptions o) k = none := by
  apply jsGet_filter_drop
  intro v
  simpa using h

lemma jsGet_withoutAddonOptions_keep (o : OptRec) (k : String)
    (h : ADDON_OPTIONS.contains k = false) : jsGet (withoutAddonOptions o) k = jsGet o k := by
  apply jsGet_filter_keep
  intro v
  simpa using h

/-- Claim C7 (amended): the `location` of `addonInfoFromOptions` is the
dasherized entity name when no `addonLocation` is supplied, is the
supplied `addonLocation` verbatim when a truthy (non-empty) one is
supplied, and falls back to the dasherized entity name when the supplied
override is falsy (the empty string), because defaulting uses `||`. -/
theorem addonInfo_location_default_or_truthy_override
    (dasherize classify : String → String) (o : Options) :
    (o.addonLocation = none →
      (addonInfoFromOptions dasherize classify o).location = dasherize o.entityName) ∧
    (∀ s, o.addonLocation = some s → s ≠ "" →
      (addonInfoFromOptions dasherize classify o).location = s) ∧
    (o.addonLocation = some "" →
      (addonInfoFromOptions dasherize classify o).location = dasherize o.entityName) := by
  refine ⟨fun h => ?_, fun s hs hne => ?_, fun h => ?_⟩
  · simp [addonInfoFromOptions, strOr, h]
  · simp [addonInfoFromOptions, strOr, hs, hne]
  · simp [addonInfoFromOptions, strOr, h]

/-- An option set supplying the falsy override `addonLocation = ""`. -/
def optionsEmptyAddonLocation : Options :=
  Options.mk "my-addon" "/tmp/x" (some "") none none none none none none none

/-- Claim C7 (counterexample): with `addonLocation` supplied as the empty
string, the returned `location` is the dasherized entity name, not the
supplied value verbatim. -/
theorem addonInfo_location_verbatim_cex :
    (addonInfoFromOptions (fun s => s) (fun s => s) optionsEmptyAddonLocation).location
      = "my-addon" ∧
    ¬((addonInfoFromOptions (fun s => s) (fun s => s) optionsEmptyAddonLocation).location
      = "") := by
  constructor
  · rfl
  · intro h
    rw [show (addonInfoFromOptions (fun s => s) (fun s => s)
      optionsEmptyAddonLocation).location = "my-addon" from rfl] at h
    exact absurd h (by decide)

/-- Claim C7 (witness): the amended claim at concrete inputs. -/
theorem addonInfo_location_default_or_truthy_override_witness :
    (addonInfoFromOptions (fun s => s ++ "-d") (fun s => s)
      (Options.mk "my-addon" "/t" none none none none none none none none)).location
      = "my-addon-d" ∧
    (addonInfoFromOptions (fun s => s ++ "-d") (fun s => s)
      (Options.mk "my-addon" "/t" (some "libs/a") none none none none none none none)).location
      = "libs/a" :=
  ⟨(addonInfo_location_default_or_truthy_override (fun s => s ++ "-d") (fun s => s) _).1 rfl,
   (addonInfo_location_default_or_truthy_override (fun s => s ++ "-d") (fun s => s) _).2.1
     "libs/a" rfl (by decide)⟩

/-- Claim C10: a falsy supplied override (`""`) for `addonLocation`,
`testAppLocation` or `testAppName` is treated as absent: the addon
location falls back to the dasherized entity name, the test-app raw name
to `"test-app"`, and the test-app dashed name and location to the
dasherized form of `"test-app"`, because defaulting uses `||`. -/
theorem falsy_overrides_fall_back_to_defaults
    (dasherize classify : String → String) (o : Options)
    (h1 : o.addonLocation = some "") (h2 : o.testAppLocation = some "")
    (h3 : o.testAppName = some "") :
    (addonInfoFromOptions dasherize classify o).location = dasherize o.entityName ∧
    (testAppInfoFromOptions dasherize o).name.raw = "test-app" ∧
    (testAppInfoFromOptions dasherize o).name.dashed = dasherize "test-app" ∧
    (testAppInfoFromOptions dasherize o).location = dasherize "test-app" := by
  refine ⟨?_, ?_, ?_, ?_⟩ <;>
    simp [addonInfoFromOptions, testAppInfoFromOptions, strOr, h1, h2, h3]

/-- Claim C10 (witness): the falsy-override fallback at concrete inputs. -/
theorem falsy_overrides_fall_back_to_defaults_witness :
    (addonInfoFromOptions (fun s => s ++ "-d") (fun s => s)
      (Options.mk "my-addon" "/t" (some "") (some "") (some "")
        none none none none none)).location = "my-addon-d" ∧
    (testAppInfoFromOptions (fun s => s ++ "-d")
      (Options.mk "my-addon" "/t" (some "") (some "") (some "")
        none none none none none)).location = "test-app-d" :=
  ⟨(falsy_overrides_fall_back_to_defaults (fun s => s ++ "-d") (fun s => s) _
      rfl rfl rfl).1,
   (falsy_overrides_fall_back_to_defaults (fun s => s ++ "-d") (fun s => s) _
      rfl rfl rfl).2.2.2⟩

/-- Claim C9: `normalizeEntityName` raises the descriptive `SilentError`
exactly when the current project is an ember-cli project that is not
itself an addon, and otherwise returns the normalized entity name; the
hook is read-only up to the raise (the embedding is a pure function of
the project state). -/
theorem normalizeEntityName_guard (normalize : String → String) (project : Project)
    (e : String) :
    (project.isEmberCLIProject = true → project.isEmberCLIAddon = false →
      normalizeEntityNameHook normalize project e =
        Except.error
          "Generating an addon in an existing ember-cli project is not supported.") ∧
    (project.isEmberCLIProject = false ∨ project.isEmberCLIAddon = true →
      normalizeEntityNameHook normalize project e = Except.ok (normalize e)) := by
  constructor
  · intro h1 h2
    simp [normalizeEntityNameHook, h1, h2]
  · intro h
    rcases h with h | h <;> simp [normalizeEntityNameHook, h]

/-- Claim C9 (witness): the guard at concrete project states. -/
theorem normalizeEntityName_guard_witness :
    normalizeEntityNameHook (fun s => s) (Project.mk true false) "x" =
      Except.error
        "Generating an addon in an existing ember-cli project is not supported." ∧
    normalizeEntityNameHook (fun s => s) (Project.mk false false) "x" = Except.ok "x" :=
  ⟨(normalizeEntityName_guard (fun s => s) (Project.mk true false) "x").1 rfl rfl,
   (normalizeEntityName_guard (fun s => s) (Project.mk false false) "x").2 (Or.inl rfl)⟩

/-- Claim C8: with falsy `vitest` and falsy `releaseIt`, the task list of
`afterInstall` contains no external process invocation: neither the
vitest scaffold command nor the release-tooling setup command runs. -/
theorem afterInstall_no_external_calls (dasherize : String → String) (o : OptRec)
    (hv : jsTruthy (jsGetD o "vitest") = false)
    (hr : jsTruthy (jsGetD o "releaseIt") = false) :
    execaCalls dasherize o = [] := by
  simp [execaCalls, afterInstallTasks, hv, hr, isExec]

/-- Claim C8 (witness): no external call for the concrete option record
with both flags set to `false`. -/
theorem afterInstall_no_external_calls_witness :
    execaCalls (fun s => s)
      [("vitest", JSVal.bool false), ("releaseIt", JSVal.bool false)] = [] :=
  afterInstall_no_external_calls (fun s => s)
    [("vitest", JSVal.bool false), ("releaseIt", JSVal.bool false)] rfl rfl

/-- The keys explicitly (re)assigned by the `appOptions` object literal of
`afterInstall`, in source order. -/
def overriddenKeys : List String :=
  ["target", "skipNpm", "skipGit", "entity", "name", "rawName", "ciProvider", "welcome"]

/-- Claim C2 (amended): the option record passed to the nested app
blueprint strips every addon-specific option, sets `skipNpm` and
`skipGit` to `true`, overrides `entity.name`, `name` and `rawName` to the
test-app's raw name, sets `welcome` to `false`, sets the placeholder CI
provider `'travis'`, overrides `target` to the nested test-app path, and
passes every other key of the original options through unchanged. -/
theorem afterInstall_appOptions_characterization (dasherize : String → String) (o : OptRec) :
    (∀ k, k ∈ ADDON_OPTIONS → jsGet (appOptions dasherize o) k = none) ∧
    jsGet (appOptions dasherize o) "skipNpm" = some (JSVal.bool true) ∧
    jsGet (appOptions dasherize o) "skipGit" = some (JSVal.bool true) ∧
    jsGet (appOptions dasherize o) "entity"
      = some (JSVal.obj [("name", JSVal.str (testAppNameRaw o))]) ∧
    jsGet (appOptions dasherize o) "name" = some (JSVal.str (testAppNameRaw o)) ∧
    jsGet (appOptions dasherize o) "rawName" = some (JSVal.str (testAppNameRaw o)) ∧
    jsGet (appOptions dasherize o) "welcome" = some (JSVal.bool false) ∧
    jsGet (appOptions dasherize o) "ciProvider" = some (JSVal.str "travis") ∧
    jsGet (appOptions dasherize o) "target"
      = some (JSVal.str (testAppPathOf dasherize o)) ∧
    (∀ k, ¬k ∈ ADDON_OPTIONS → ¬k ∈ overriddenKeys →
      jsGet (appOptions dasherize o) k = jsGet o k) := by
  refine ⟨?_, ?_, ?_, ?_, ?_, ?_, ?_, ?_, ?_, ?_⟩
  · intro k hk
    fin_cases hk <;>
      simp [appOptions, jsGet_objSet, jsGet_withoutAddonOptions_strip, ADDON_OPTIONS]
  · simp [appOptions, jsGet_objSet]
  · simp [appOptions, jsGet_objSet]
  · simp [appOptions, jsGet_objSet]
  · simp [appOptions, jsGet_objSet]
  · simp [appOptions, jsGet_objSet]
  · simp [appOptions, jsGet_objSet]
  · simp [appOptions, jsGet_objSet]
  · simp [appOptions, jsGet_objSet]
  · intro k h1 h2
    simp only [overriddenKeys, List.mem_cons, List.not_mem_nil, or_false, not_or] at h2
    obtain ⟨n1, n2, n3, n4, n5, n6, n7, n8⟩ := h2
    have hc : ADDON_OPTIONS.contains k = false := by
      simp only [ADDON_OPTIONS, List.mem_cons, List.not_mem_nil, or_false, not_or] at h1
      simp [ADDON_OPTIONS, List.contains, h1.1, h1.2.1, h1.2.2.1, h1.2.2.2]
    simp [appOptions, jsGet_objSet, n1, n2, n3, n4, n5, n6, n7, n8,
      jsGet_withoutAddonOptions_keep o k hc]

/-- A concrete option record holding only a `target`. -/
def targetChangeOptions : OptRec := [("target", JSVal.str "/tmp/x")]

/-- Claim C2 (counterexample): `target` is a key of the original options
that is neither addon-specific nor among the overrides the claim lists,
yet it is not passed through unchanged — `afterInstall` retargets the
nested blueprint at the test-app path. -/
theorem afterInstall_target_not_passed_through_cex :
    jsGet targetChangeOptions "target" = some (JSVal.str "/tmp/x") ∧
    jsGet (appOptions (fun s => s) targetChangeOptions) "target"
      = some (JSVal.str "/tmp/x/test-app") ∧
    ¬"target" ∈ ADDON_OPTIONS :=
  ⟨rfl, rfl, by decide⟩

/-- Claim C2 (witness): the amended characterization at a concrete record:
an addon-specific key is stripped and an unrelated key passes through. -/
theorem afterInstall_appOptions_characterization_witness :
    jsGet (appOptions (fun s => s)
      [("releaseIt", JSVal.bool true), ("blueprint", JSVal.str "addon")])
      "releaseIt" = none ∧
    jsGet (appOptions (fun s => s)
      [("releaseIt", JSVal.bool true), ("blueprint", JSVal.str "addon")])
      "blueprint" = some (JSVal.str "addon") :=
  ⟨(afterInstall_appOptions_characterization (fun s => s)
      [("releaseIt", JSVal.bool true), ("blueprint", JSVal.str "addon")]).1
      "releaseIt" (by decide),
   ((afterInstall_appOptions_characterization (fun s => s)
      [("releaseIt", JSVal.bool true), ("blueprint", JSVal.str "addon")]).2.2.2.2.2.2.2.2.2
      "blueprint" (by decide) (by decide)).trans rfl⟩

lemma mem_filterMap_id (l : List (Option String)) (s : String) :
    s ∈ l.filterMap id ↔ some s ∈ l := by
  simp [List.mem_filterMap]

lemma some_mem_ite_cons (c : Prop) [Decidable c] (v s : String)
    (rest : List (Option String)) :
    (some s ∈ (if c then some v else none) :: rest) ↔ ((c ∧ s = v) ∨ some s ∈ rest) := by
  by_cases h : c <;> simp [h]

/-- Claim C1: the `blueprintOptions` fragment is empty when none of
`welcome`, `yarn` (the package-manager choice) and `ciProvider` is set;
when at least one of them is set, the fragment is the non-empty indented
join of the flag entries, and the flag entries are exactly the supplied
optional flags and no others. -/
theorem locals_blueprintOptions_exact_flags (o : Options) :
    (hasOptionsB o = false → blueprintOptions o = "") ∧
    (hasOptionsB o = true →
      blueprintOptions o =
        indentStr ++ String.intercalate flagSep (flagEntries o) ++ outdentStr ∧
      blueprintOptions o ≠ "" ∧
      (∀ s : String, s ∈ flagEntries o ↔
        ((obTruthy o.welcome = true ∧ s = "\"--welcome\"") ∨
         (obTruthy o.yarn = true ∧ s = "\"--yarn\"") ∨
         (obTruthy o.vitest = true ∧ s = "\"--vitest\"") ∨
         (osTruthy o.ciProvider = true ∧
           s = "\"--ci-provider=" ++ (o.ciProvider.getD "") ++ "\"") ∨
         (osTruthy o.addonLocation = true ∧
           s = "\"--addon-location=" ++ (o.addonLocation.getD "") ++ "\"") ∨
         (osTruthy o.testAppLocation = true ∧
           s = "\"--test-app-location=" ++ (o.testAppLocation.getD "") ++ "\"") ∨
         (osTruthy o.testAppName = true ∧
           s = "\"--test-app-name=" ++ (o.testAppName.getD "") ++ "\"") ∨
         (obTruthy o.releaseIt = true ∧ s = "\"--release-it\"")))) := by
  constructor
  · intro h
    simp [blueprintOptions, h]
  · intro h
    have heq : blueprintOptions o =
        indentStr ++ String.intercalate flagSep (flagEntries o) ++ outdentStr := by
      simp [blueprintOptions, h]
    refine ⟨heq, ?_, ?_⟩
    · intro hempty
      rw [heq] at hempty
      have hlen := congrArg String.length hempty
      rw [String.length_append, String.length_append] at hlen
      have h1 : indentStr.length = 13 := rfl
      have h2 : outdentStr.length = 11 := rfl
      have h3 : ("" : String).length = 0 := rfl
      rw [h1, h2, h3] at hlen
      omega
    · intro s
      rw [flagEntries, mem_filterMap_id]
      simp only [flagItems, some_mem_ite_cons, List.not_mem_nil, or_false]

/-- Concrete option sets: no optional flag, and several flags. -/
def optionsNoFlags : Options :=
  Options.mk "a" "/t" none none none none none none none none

/-- Concrete option set with `welcome` and `ciProvider` supplied. -/
def optionsSomeFlags : Options :=
  Options.mk "a" "/t" none none none (some "github") (some true) none none none

/-- Claim C1 (witness): the concrete empty and non-empty fragments. -/
theorem locals_blueprintOptions_exact_flags_witness :
    blueprintOptions optionsNoFlags = "" ∧
    blueprintOptions optionsSomeFlags ≠ "" ∧
    "\"--welcome\"" ∈ flagEntries optionsSomeFlags :=
  ⟨(locals_blueprintOptions_exact_flags optionsNoFlags).1 rfl,
   ((locals_blueprintOptions_exact_flags optionsSomeFlags).2 rfl).2.1,
   (((locals_blueprintOptions_exact_flags optionsSomeFlags).2 rfl).2.2
     "\"--welcome\"").mpr (Or.inl ⟨rfl, rfl⟩)⟩

lemma pathLe_append (d r : FPath) : pathLe d (d ++ r) = true := by
  induction d with
  | nil => simp [pathLe]
  | cons a as ih => simp [pathLe, ih]

lemma pathLe_iff (d p : FPath) : pathLe d p = true ↔ ∃ r, p = d ++ r := by
  induction d generalizing p with
  | nil =>
    simp [pathLe]
  | cons a as ih =>
    cases p with
    | nil => simp [pathLe]
    | cons b bs =>
      simp only [pathLe, Bool.and_eq_true, beq_iff_eq, ih]
      constructor
      · rintro ⟨hab, r, hr⟩
        exact ⟨r, by rw [← hab, hr]; rfl⟩
      · rintro ⟨r, hr⟩
        rw [List.cons_append, List.cons_eq_cons] at hr
        exact ⟨hr.1.symm, r, hr.2⟩

lemma pathLe_total (a : FPath) : ∀ b c : FPath, pathLe a c = true → pathLe b c = true →
    pathLe a b = true ∨ pathLe b a = true := by
  induction a with
  | nil =>
    intro b c _ _
    exact Or.inl (by simp [pathLe])
  | cons x xs ih =>
    intro b c h1 h2
    cases b with
    | nil => exact Or.inr (by simp [pathLe])
    | cons y ys =>
      cases c with
      | nil => simp [pathLe] at h1
      | cons z zs =>
        simp only [pathLe, Bool.and_eq_true, beq_iff_eq] at h1 h2
        rcases ih ys zs h1.2 h2.2 with hx | hx
        · exact Or.inl (by simp [pathLe, Bool.and_eq_true, beq_iff_eq, hx, h1.1.trans h2.1.symm])
        · exact Or.inr (by simp [pathLe, Bool.and_eq_true, beq_iff_eq, hx, h2.1.trans h1.1.symm])

lemma not_under_of_append (op tp r : FPath) (h1 : pathLe op tp = false)
    (h2 : pathLe tp op = false) : pathLe op (tp ++ r) = false := by
  cases hc : pathLe op (tp ++ r) with
  | false => rfl
  | true =>
    exfalso
    rcases pathLe_total op tp (tp ++ r) hc (pathLe_append tp r) with hx | hx
    · rw [h1] at hx
      exact Bool.false_ne_true hx
    · rw [h2] at hx
      exact Bool.false_ne_true hx

lemma fsGet_cons (e : FPath × String) (fs : FS) (p : FPath) :
    fsGet (e :: fs) p = if e.1 = p then some e.2 else fsGet fs p := by
  rcases e with ⟨q, c⟩
  by_cases h : q = p
  · subst h
    simp [fsGet, List.find?]
  · have hb : (decide (q = p)) = false := by simpa using h
    simp [fsGet, List.find?, hb, h]

lemma fsGet_append_of_none (xs ys : FS) (p : FPath) (h : fsGet xs p = none) :
    fsGet (xs ++ ys) p = fsGet ys p := by
  induction xs with
  | nil => rfl
  | cons e rest ih =>
    rw [List.cons_append, fsGet_cons]
    rw [fsGet_cons] at h
    by_cases he : e.1 = p
    · rw [if_pos he] at h
      exact absurd h (by simp)
    · rw [if_neg he] at h ⊢
      exact ih h

lemma fsGet_append_of_some (xs ys : FS) (p : FPath) (v : String)
    (h : fsGet xs p = some v) : fsGet (xs ++ ys) p = some v := by
  induction xs with
  | nil => exact absurd h (by simp [fsGet])
  | cons e rest ih =>
    rw [List.cons_append, fsGet_cons]
    rw [fsGet_cons] at h
    by_cases he : e.1 = p
    · rwa [if_pos he] at h ⊢
    · rw [if_neg he] at h ⊢
      exact ih h

lemma fsGet_eq_none_iff (fs : FS) (p : FPath) :
    fsGet fs p = none ↔ ∀ e ∈ fs, ¬(e.1 = p) := by
  simp [fsGet, List.find?_eq_none]

lemma mem_copyEntries (op tp : FPath) (fs : FS) (e : FPath × String)
    (h : e ∈ copyEntries op tp fs) :
    ∃ q c, (q, c) ∈ fs ∧ pathLe op q = true ∧ op.length < q.length ∧
      e = (tp ++ q.drop op.length, c) := by
  simp only [copyEntries, List.mem_filterMap] at h
  obtain ⟨a, ha, hfa⟩ := h
  by_cases hc : (pathLe op a.1 && Nat.blt op.length a.1.length) = true
  · rw [if_pos hc] at hfa
    rw [Bool.and_eq_true] at hc
    refine ⟨a.1, a.2, by simpa using ha, hc.1, by
      have := hc.2
      rwa [Nat.blt_eq] at this, (Option.some.inj hfa).symm⟩
  · rw [if_neg hc] at hfa
    exact absurd hfa (by simp)

lemma fsGet_copyEntries_none_of_under (op tp : FPath) (fs : FS) (q : FPath)
    (h1 : pathLe op tp = false) (h2 : pathLe tp op = false)
    (hq : pathLe op q = true) : fsGet (copyEntries op tp fs) q = none := by
  rw [fsGet_eq_none_iff]
  intro e he heq
  obtain ⟨p0, c0, hmem, hle, hlen, hshape⟩ := mem_copyEntries op tp fs e he
  have hfst : e.1 = tp ++ p0.drop op.length := by rw [hshape]
  rw [hfst] at heq
  rw [← heq] at hq
  rw [not_under_of_append op tp _ h1 h2] at hq
  exact Bool.false_ne_true hq

lemma fsGet_filter_keep (fs : FS) (P : FPath × String → Bool) (q : FPath)
    (h : ∀ c, P (q, c) = true) : fsGet (fs.filter P) q = fsGet fs q := by
  induction fs with
  | nil => rfl
  | cons e rest ih =>
    rcases e with ⟨p1, c⟩
    by_cases hp : p1 = q
    · subst hp
      rw [List.filter_cons, h c]
      simp [fsGet_cons]
    · cases hP : P (p1, c) with
      | true =>
        rw [List.filter_cons, hP]
        simp [fsGet_cons, hp, ih]
      | false =>
        rw [List.filter_cons, hP]
        simp [fsGet_cons, hp, ih]

lemma fsGet_filter_drop (fs : FS) (P : FPath × String → Bool) (q : FPath)
    (h : ∀ c, P (q, c) = false) : fsGet (fs.filter P) q = none := by
  induction fs with
  | nil => rfl
  | cons e rest ih =>
    rcases e with ⟨p1, c⟩
    by_cases hp : p1 = q
    · subst hp
      rw [List.filter_cons, h c]
      simpa using ih
    · cases hP : P (p1, c) with
      | true =>
        rw [List.filter_cons, hP]
        simpa [fsGet_cons, hp] using ih
      | false =>
        rw [List.filter_cons, hP]
        simpa using ih

lemma fsGet_fsRemove_outside (d : FPath) (fs : FS) (q : FPath)
    (h : pathLe d q = false) : fsGet (fsRemove d fs) q = fsGet fs q := by
  apply fsGet_filter_keep
  intro c
  simp [h]

lemma fsGet_fsRemove_inside (d : FPath) (fs : FS) (q : FPath)
    (h : pathLe d q = true) : fsGet (fsRemove d fs) q = none := by
  apply fsGet_filter_drop
  intro c
  simp [h]

lemma fsGet_copyEntries_at_target (op tp s : FPath) (fs : FS) (hs : s ≠ []) :
    fsGet (copyEntries op tp fs) (tp ++ s) = fsGet fs (op ++ s) := by
  induction fs with
  | nil => rfl
  | cons e rest ih =>
    rcases e with ⟨q, c⟩
    by_cases hc : (pathLe op q && Nat.blt op.length q.length) = true
    · have hcons : copyEntries op tp ((q, c) :: rest) =
          (tp ++ q.drop op.length, c) :: copyEntries op tp rest := by
        simp only [copyEntries, List.filterMap_cons]
        rw [if_pos hc]
      rw [hcons, fsGet_cons, fsGet_cons]
      have hc2 := hc
      rw [Bool.and_eq_true] at hc2
      obtain ⟨hle, hlt⟩ := hc2
      obtain ⟨r, hr⟩ := (pathLe_iff op q).mp hle
      have hdrop : q.drop op.length = r := by
        rw [hr]
        exact List.drop_left op r
      by_cases hqs : q = op ++ s
      · have hr2 : r = s := by
          rw [hqs] at hr
          exact (List.append_cancel_left hr).symm
        rw [if_pos, if_pos hqs]
        simp only [hdrop, hr2]
      · rw [if_neg, if_neg hqs]
        · exact ih
        · intro hcontra
          simp only [hdrop] at hcontra
          have : r = s := List.append_cancel_left hcontra
          rw [← this] at hqs
          exact hqs hr
    · have hcons : copyEntries op tp ((q, c) :: rest) = copyEntries op tp rest := by
        simp only [copyEntries, List.filterMap_cons]
        rw [if_neg hc]
      rw [hcons, fsGet_cons, ih]
      rw [if_neg]
      intro hcontra
      apply hc
      have hq2 : q = op ++ s := hcontra
      rw [hq2]
      rw [Bool.and_eq_true]
      refine ⟨pathLe_append op s, ?_⟩
      rw [Nat.blt_eq, List.length_append]
      cases s with
      | nil => exact absurd rfl hs
      | cons a as => simp

/-- Claim C3: in `overrideTestAppFiles`, deletion of the staging directory
is sequenced strictly after a successful copy: a failing copy rejects with
the staging directory intact (every file under `overridesPath` unchanged),
and the remove runs only on the success path, after the whole copy. -/
theorem overrideTestAppFiles_remove_only_after_copy (tp op : FPath) (fs : FS)
    (k : Nat) (p : FPath)
    (h1 : pathLe op tp = false) (h2 : pathLe tp op = false)
    (hp : pathLe op p = true) :
    overrideTestAppFiles (some k) tp op fs =
      Except.error ((copyEntries op tp fs).take k ++ fs) ∧
    fsGet ((copyEntries op tp fs).take k ++ fs) p = fsGet fs p ∧
    overrideTestAppFiles none tp op fs =
      Except.ok (fsRemove op (fsCopy op tp fs)) := by
  refine ⟨rfl, ?_, rfl⟩
  apply fsGet_append_of_none
  rw [fsGet_eq_none_iff]
  intro e he
  have he' : e ∈ copyEntries op tp fs := List.mem_of_mem_take he
  have hnone := fsGet_copyEntries_none_of_under op tp fs p h1 h2 hp
  rw [fsGet_eq_none_iff] at hnone
  exact hnone e he'

/-- A demonstration file store: one app file and one staged override. -/
def demoFS : FS := [(["app", "a"], "A"), (["ov", "b"], "B")]

/-- Claim C3 (witness): the failing copy preserves the staged file at a
concrete store. -/
theorem overrideTestAppFiles_remove_only_after_copy_witness :
    overrideTestAppFiles (some 0) ["app"] ["ov"] demoFS =
      Except.error ((copyEntries ["ov"] ["app"] demoFS).take 0 ++ demoFS) ∧
    fsGet ((copyEntries ["ov"] ["app"] demoFS).take 0 ++ demoFS) ["ov", "b"] =
      fsGet demoFS ["ov", "b"] ∧
    overrideTestAppFiles none ["app"] ["ov"] demoFS =
      Except.ok (fsRemove ["ov"] (fsCopy ["ov"] ["app"] demoFS)) :=
  overrideTestAppFiles_remove_only_after_copy ["app"] ["ov"] demoFS 0 ["ov", "b"]
    rfl rfl rfl

/-- Claim C4: override relocation only overlays.  On success the result is
`fsRemove op (fsCopy op tp fs)` in which: a destination file whose path is
not a copy target survives unchanged, every staged file `op ++ s`
reappears at `tp ++ s`, the staging directory is gone, and any path that
is neither staged nor a copy target keeps its original content. -/
theorem overrideTestAppFiles_overlay (tp op : FPath) (fs : FS) (pA : FPath)
    (cA : String) (s : FPath) (cB : String)
    (h1 : pathLe op tp = false) (h2 : pathLe tp op = false)
    (hA : fsGet fs pA = some cA) (hAop : pathLe op pA = false)
    (hAtgt : fsGet (copyEntries op tp fs) pA = none)
    (hs : s ≠ []) (hB : fsGet fs (op ++ s) = some cB) :
    overrideTestAppFiles none tp op fs =
      Except.ok (fsRemove op (fsCopy op tp fs)) ∧
    fsGet (fsRemove op (fsCopy op tp fs)) pA = some cA ∧
    fsGet (fsRemove op (fsCopy op tp fs)) (tp ++ s) = some cB ∧
    (∀ q, pathLe op q = true → fsGet (fsRemove op (fsCopy op tp fs)) q = none) ∧
    (∀ q, pathLe op q = false → fsGet (copyEntries op tp fs) q = none →
      fsGet (fsRemove op (fsCopy op tp fs)) q = fsGet fs q) := by
  have frame : ∀ q, pathLe op q = false → fsGet (copyEntries op tp fs) q = none →
      fsGet (fsRemove op (fsCopy op tp fs)) q = fsGet fs q := by
    intro q hq hnone
    rw [fsGet_fsRemove_outside op _ q hq]
    unfold fsCopy
    rw [fsGet_append_of_none _ _ _ hnone]
  refine ⟨rfl, ?_, ?_, ?_, frame⟩
  · rw [frame pA hAop hAtgt]
    exact hA
  · have hout : pathLe op (tp ++ s) = false := not_under_of_append op tp s h1 h2
    rw [fsGet_fsRemove_outside op _ _ hout]
    unfold fsCopy
    apply fsGet_append_of_some
    rw [fsGet_copyEntries_at_target op tp s fs hs]
    exact hB
  · intro q hq
    exact fsGet_fsRemove_inside op _ q hq

/-- Claim C4 (witness): at the concrete store, the app file survives, the
staged file is relocated, and the staging directory is removed. -/
theorem overrideTestAppFiles_overlay_witness :
    fsGet (fsRemove ["ov"] (fsCopy ["ov"] ["app"] demoFS)) ["app", "a"] = some "A" ∧
    fsGet (fsRemove ["ov"] (fsCopy ["ov"] ["app"] demoFS)) (["app"] ++ ["b"]) = some "B" :=
  ⟨(overrideTestAppFiles_overlay ["app"] ["ov"] demoFS ["app", "a"] "A" ["b"] "B"
      rfl rfl rfl rfl rfl (by decide) rfl).2.1,
   (overrideTestAppFiles_overlay ["app"] ["ov"] demoFS ["app", "a"] "A" ["b"] "B"
      rfl rfl rfl rfl rfl (by decide) rfl).2.2.1⟩

/-- Claim C5: for a parseable manifest, `updateTestAppPackageJson` writes
back exactly the spec-side pipeline `specManifestPatch`: deep-merge of the
bundled fragment (fragment wins), explicit dev-dependency entry
`"^0.0.0"` for the addon, canonical key sort and 2-space-indented
serialization, at the original path; a read, parse or write failure
propagates as an uncaught error. -/
theorem updateTestAppPackageJson_spec (additions : Json) (nm path : String)
    (fs : List (String × Option Json)) :
    (∀ pkg out, lookupFile fs path = some (some pkg) →
      specManifestPatch additions nm pkg = some out →
      updateTestAppPackageJson additions nm true path fs = Except.ok (path, out)) ∧
    (lookupFile fs path = none →
      updateTestAppPackageJson additions nm true path fs =
        Except.error "read error: no such file") ∧
    (lookupFile fs path = some none →
      updateTestAppPackageJson additions nm true path fs =
        Except.error "parse error: invalid JSON") ∧
    (∀ pkg, lookupFile fs path = some (some pkg) →
      setDevDep (jsonMerge pkg additions) nm ≠ none →
      updateTestAppPackageJson additions nm false path fs =
        Except.error "write error") := by
  refine ⟨?_, ?_, ?_, ?_⟩
  · intro pkg out hread hspec
    rw [specManifestPatch, Option.map_eq_some'] at hspec
    obtain ⟨j, hset, hout⟩ := hspec
    rw [updateTestAppPackageJson, hread]
    simp only [hset, ← hout]
    rfl
  · intro h
    rw [updateTestAppPackageJson, h]
  · intro h
    rw [updateTestAppPackageJson, h]
  · intro pkg hread hset
    rw [updateTestAppPackageJson, hread]
    rcases hd : setDevDep (jsonMerge pkg additions) nm with _ | j
    · exact absurd hd hset
    · simp only [hd]
      rfl

/-- A small parseable manifest with an empty `devDependencies` object. -/
def demoPkg : Json :=
  Json.obj [("name", Json.str "x"), ("devDependencies", Json.obj [])]

/-- A store holding the demo manifest at path `"p"`. -/
def demoManifestFS : List (String × Option Json) := [("p", some demoPkg)]

/-- Claim C5 (witness): the pipeline at a concrete manifest and an empty
bundled fragment. -/
theorem updateTestAppPackageJson_spec_witness :
    updateTestAppPackageJson (Json.obj []) "my-addon" true "p" demoManifestFS =
      Except.ok ("p", stringify "" (sortPackageJson (Json.obj [("name", Json.str "x"),
        ("devDependencies", Json.obj [("my-addon", Json.str "^0.0.0")])]))) :=
  (updateTestAppPackageJson_spec (Json.obj []) "my-addon" "p" demoManifestFS).1
    demoPkg _ rfl (by simp [specManifestPatch, jsonMerge, mergeFields, setDevDep,
      demoPkg, findEntry, setField])

lemma jsonMerge_obj_obj (a b : List (String × Json)) :
    jsonMerge (Json.obj a) (Json.obj b) = Json.obj (mergeFields a b) := by
  simp [jsonMerge]

lemma jsonMerge_arr_arr (xs ys : List Json) :
    jsonMerge (Json.arr xs) (Json.arr ys) = Json.arr (mergeList xs ys) := by
  simp [jsonMerge]

lemma jsonMerge_scalar_src (p a : Json) (h1 : ∀ b, a ≠ Json.obj b)
    (h2 : ∀ ys, a ≠ Json.arr ys) : jsonMerge p a = a := by
  cases a with
  | obj b => exact absurd rfl (h1 b)
  | arr ys => exact absurd rfl (h2 ys)
  | null => cases p <;> simp [jsonMerge]
  | bool b2 => cases p <;> simp [jsonMerge]
  | num n2 => cases p <;> simp [jsonMerge]
  | str s2 => cases p <;> simp [jsonMerge]

lemma jsonMerge_not_obj_src_obj (p : Json) (b : List (String × Json))
    (h : ∀ a, p ≠ Json.obj a) : jsonMerge p (Json.obj b) = Json.obj b := by
  cases p with
  | obj a => exact absurd rfl (h a)
  | null => simp [jsonMerge]
  | bool b2 => simp [jsonMerge]
  | num n2 => simp [jsonMerge]
  | str s2 => simp [jsonMerge]
  | arr xs => simp [jsonMerge]

lemma jsonMerge_not_arr_src_arr (p : Json) (ys : List Json)
    (h : ∀ xs, p ≠ Json.arr xs) : jsonMerge p (Json.arr ys) = Json.arr ys := by
  cases p with
  | arr xs => exact absurd rfl (h xs)
  | null => simp [jsonMerge]
  | bool b2 => simp [jsonMerge]
  | num n2 => simp [jsonMerge]
  | str s2 => simp [jsonMerge]
  | obj a => simp [jsonMerge]

lemma mergeFields_nil (a : List (String × Json)) : mergeFields a [] = a := by
  simp [mergeFields]

lemma mergeFields_cons (a : List (String × Json)) (k : String) (w : Json)
    (rest : List (String × Json)) :
    mergeFields a ((k, w) :: rest) = mergeFields (mergeOne a k w) rest := by
  simp [mergeFields, mergeOne]

lemma mergeList_nil_right (xs : List Json) : mergeList xs [] = xs := by
  simp [mergeList]

lemma mergeList_nil_left (ys : List Json) : mergeList [] ys = ys := by
  cases ys <;> simp [mergeList]

lemma mergeList_cons_cons (x : Json) (xs : List Json) (y : Json) (ys : List Json) :
    mergeList (x :: xs) (y :: ys) = jsonMerge x y :: mergeList xs ys := by
  simp [mergeList]

lemma findEntry_cons (e : String × Json) (rest : List (String × Json)) (k : String) :
    findEntry (e :: rest) k = if e.1 = k then some e.2 else findEntry rest k := by
  rcases e with ⟨k1, v⟩
  by_cases h : k1 = k
  · subst h
    simp [findEntry, List.find?]
  · have hb : (k1 == k) = false := by simpa using h
    simp [findEntry, List.find?, hb, h]

lemma findEntry_setField_same (a : List (String × Json)) (k : String) (v : Json) :
    findEntry (setField a k v) k = some v := by
  induction a with
  | nil => simp [setField, findEntry_cons]
  | cons e rest ih =>
    by_cases he : e.1 = k
    · have hb : (e.1 == k) = true := by simpa using he
      simp [setField, hb, findEntry_cons]
    · have hb : (e.1 == k) = false := by simpa using he
      simp [setField, hb, findEntry_cons, he, ih]

lemma findEntry_setField_other (a : List (String × Json)) (k k' : String) (v : Json)
    (h : ¬k' = k) : findEntry (setField a k v) k' = findEntry a k' := by
  induction a with
  | nil =>
    have hne : ¬(k = k') := fun hh => h hh.symm
    simp [setField, findEntry_cons, hne, findEntry]
  | cons e rest ih =>
    by_cases he : e.1 = k
    · have hb : (e.1 == k) = true := by simpa using he
      have hne : ¬(k = k') := fun hh => h hh.symm
      have hne2 : ¬(e.1 = k') := by rw [he]; exact hne
      simp [setField, hb, findEntry_cons, hne, hne2]
    · have hb : (e.1 == k) = false := by simpa using he
      simp [setField, hb, findEntry_cons, ih]

lemma findEntry_append_single_same (a : List (String × Json)) (k : String) (w : Json)
    (h : findEntry a k = none) : findEntry (a ++ [(k, w)]) k = some w := by
  induction a with
  | nil => simp [findEntry_cons]
  | cons e rest ih =>
    rw [findEntry_cons] at h
    by_cases he : e.1 = k
    · rw [if_pos he] at h
      exact absurd h (by simp)
    · rw [if_neg he] at h
      rw [List.cons_append, findEntry_cons, if_neg he]
      exact ih h

lemma findEntry_append_single_other (a : List (String × Json)) (k k' : String) (w : Json)
    (h : ¬k' = k) : findEntry (a ++ [(k, w)]) k' = findEntry a k' := by
  induction a with
  | nil =>
    have hne : ¬(k = k') := fun hh => h hh.symm
    simp [findEntry_cons, hne, findEntry]
  | cons e rest ih =>
    rw [List.cons_append, findEntry_cons, findEntry_cons, ih]

lemma findEntry_mergeOne_same (a : List (String × Json)) (k : String) (w : Json) :
    findEntry (mergeOne a k w) k =
      some (match findEntry a k with | some v => jsonMerge v w | none => w) := by
  unfold mergeOne
  rcases h : findEntry a k with _ | v
  · simp only [h]
    exact findEntry_append_single_same a k w h
  · simp only [h]
    exact findEntry_setField_same a k _

lemma findEntry_mergeOne_other (a : List (String × Json)) (k k' : String) (w : Json)
    (h : ¬k' = k) : findEntry (mergeOne a k w) k' = findEntry a k' := by
  unfold mergeOne
  rcases hf : findEntry a k with _ | v
  · exact findEntry_append_single_other a k k' w h
  · exact findEntry_setField_other a k k' _ h

lemma setField_self (a : List (String × Json)) (k : String) (v' : Json)
    (h : findEntry a k = some v') : setField a k v' = a := by
  induction a with
  | nil => exact absurd h (by simp [findEntry])
  | cons e rest ih =>
    obtain ⟨e1, e2⟩ := e
    rw [findEntry_cons] at h
    by_cases he : e1 = k
    · rw [if_pos he] at h
      have hv : e2 = v' := Option.some.inj h
      have hb : (e1 == k) = true := by simpa using he
      simp [setField, hb, ← he, ← hv]
    · have hb : (e1 == k) = false := by simpa using he
      rw [if_neg he] at h
      simp [setField, hb, ih h]

lemma mergeOne_absorb (a : List (String × Json)) (k : String) (w v' : Json)
    (hfind : findEntry a k = some v') (habs : jsonMerge v' w = v') :
    mergeOne a k w = a := by
  unfold mergeOne
  simp only [hfind]
  rw [habs]
  exact setField_self a k v' hfind

lemma mergeFields_absorb (b : List (String × Json)) : ∀ M,
    (∀ kw ∈ b, ∃ v', findEntry M kw.1 = some v' ∧ jsonMerge v' kw.2 = v') →
    mergeFields M b = M := by
  induction b with
  | nil =>
    intro M _
    exact mergeFields_nil M
  | cons e rest ih =>
    intro M h
    obtain ⟨k, w⟩ := e
    rw [mergeFields_cons]
    obtain ⟨v', hf, habs⟩ := h (k, w) (List.mem_cons_self _ _)
    rw [mergeOne_absorb M k w v' hf habs]
    exact ih M (fun kw hkw => h kw (List.mem_cons_of_mem _ hkw))

lemma findEntry_mergeFields_stable (rest : List (String × Json)) :
    ∀ a' k, (∀ e ∈ rest, ¬(e.1 = k)) →
    findEntry (mergeFields a' rest) k = findEntry a' k := by
  induction rest with
  | nil =>
    intro a' k _
    rw [mergeFields_nil]
  | cons e r ih =>
    intro a' k h
    obtain ⟨k2, w2⟩ := e
    rw [mergeFields_cons]
    rw [ih (mergeOne a' k2 w2) k (fun f hf => h f (List.mem_cons_of_mem _ hf))]
    exact findEntry_mergeOne_other a' k2 k w2
      (fun hh => (h (k2, w2) (List.mem_cons_self _ _)) hh.symm)

lemma nodupKeys_cons (k : String) (w : Json) (rest : List (String × Json)) :
    nodupKeys ((k, w) :: rest) = true ↔
      (∀ e ∈ rest, ¬(e.1 = k)) ∧ nodupKeys rest = true := by
  simp [nodupKeys, Bool.and_eq_true, List.any_eq_false]

lemma findEntry_of_mem_nodup (b : List (String × Json)) (k : String) (w : Json)
    (hnd : nodupKeys b = true) (hmem : (k, w) ∈ b) : findEntry b k = some w := by
  induction b with
  | nil => simp at hmem
  | cons e rest ih =>
    obtain ⟨k1, w1⟩ := e
    rw [nodupKeys_cons] at hnd
    rw [findEntry_cons]
    rcases List.mem_cons.mp hmem with heq | hmem2
    · obtain ⟨hk, hw⟩ := Prod.mk.injEq .. ▸ heq
      rw [if_pos hk.symm, hw]
    · have hne : ¬(k1 = k) := fun hh => (hnd.1 (k, w) hmem2) hh.symm
      rw [if_neg hne]
      exact ih hnd.2 hmem2

lemma jsonWF_obj (b : List (String × Json)) :
    jsonWF (Json.obj b) = true ↔ nodupKeys b = true ∧ fieldsWF b = true := by
  simp [jsonWF, Bool.and_eq_true]

lemma jsonWF_arr (ys : List Json) : jsonWF (Json.arr ys) = true ↔ listWF ys = true := by
  simp [jsonWF]

lemma fieldsWF_mem (b : List (String × Json)) (k : String) (w : Json)
    (h : fieldsWF b = true) (hm : (k, w) ∈ b) : jsonWF w = true := by
  induction b with
  | nil => simp at hm
  | cons e rest ih =>
    obtain ⟨k1, w1⟩ := e
    have h2 : jsonWF w1 = true ∧ fieldsWF rest = true := by
      have := h
      simp only [fieldsWF, Bool.and_eq_true] at this
      exact this
    rcases List.mem_cons.mp hm with heq | hm2
    · obtain ⟨_, hw⟩ := Prod.mk.injEq .. ▸ heq
      rw [hw]
      exact h2.1
    · exact ih h2.2 hm2

lemma listWF_mem (ys : List Json) (y : Json) (h : listWF ys = true) (hm : y ∈ ys) :
    jsonWF y = true := by
  induction ys with
  | nil => simp at hm
  | cons z rest ih =>
    have h2 : jsonWF z = true ∧ listWF rest = true := by
      have := h
      simp only [listWF, Bool.and_eq_true] at this
      exact this
    rcases List.mem_cons.mp hm with heq | hm2
    · rw [heq]
      exact h2.1
    · exact ih h2.2 hm2

lemma sizeOf_val_lt_of_mem_fields (b : List (String × Json)) (k : String) (w : Json)
    (h : (k, w) ∈ b) : sizeOf w < sizeOf (Json.obj b) := by
  have h1 : sizeOf (k, w) < sizeOf b := List.sizeOf_lt_of_mem h
  have h2 : sizeOf (Json.obj b) = 1 + sizeOf b := by simp
  have h3 : sizeOf (k, w) = 1 + sizeOf k + sizeOf w := by simp
  omega

lemma sizeOf_elem_lt_arr (ys : List Json) (y : Json) (h : y ∈ ys) :
    sizeOf y < sizeOf (Json.arr ys) := by
  have h1 : sizeOf y < sizeOf ys := List.sizeOf_lt_of_mem h
  have h2 : sizeOf (Json.arr ys) = 1 + sizeOf ys := by simp
  omega

lemma findEntry_mergeFields (b : List (String × Json)) : ∀ a k w, (k, w) ∈ b →
    nodupKeys b = true →
    findEntry (mergeFields a b) k =
      some (match findEntry a k with | some v => jsonMerge v w | none => w) := by
  induction b with
  | nil =>
    intro a k w hmem _
    simp at hmem
  | cons e rest ih =>
    intro a k w hmem hnd
    obtain ⟨k1, w1⟩ := e
    rw [nodupKeys_cons] at hnd
    rw [mergeFields_cons]
    rcases List.mem_cons.mp hmem with heq | hmem2
    · cases heq
      rw [findEntry_mergeFields_stable rest (mergeOne a k w) k hnd.1]
      exact findEntry_mergeOne_same a k w
    · have hk1 : ¬(k = k1) := hnd.1 (k, w) hmem2
      rw [ih (mergeOne a k1 w1) k w hmem2 hnd.2]
      rw [findEntry_mergeOne_other a k1 k w1 hk1]

lemma mergeList_diag (ys : List Json) (h : ∀ y ∈ ys, jsonMerge y y = y) :
    mergeList ys ys = ys := by
  induction ys with
  | nil => rw [mergeList_nil_right]
  | cons y ys' ih =>
    rw [mergeList_cons_cons, h y (List.mem_cons_self _ _),
      ih (fun z hz => h z (List.mem_cons_of_mem _ hz))]

lemma mergeList_absorb (ys : List Json)
    (h : ∀ y ∈ ys, (∀ v, jsonMerge (jsonMerge v y) y = jsonMerge v y) ∧
      jsonMerge y y = y) :
    ∀ xs, mergeList (mergeList xs ys) ys = mergeList xs ys := by
  induction ys with
  | nil =>
    intro xs
    rw [mergeList_nil_right, mergeList_nil_right]
  | cons y ys' ih =>
    intro xs
    cases xs with
    | nil =>
      rw [mergeList_nil_left, mergeList_cons_cons, (h y (List.mem_cons_self _ _)).2,
        mergeList_diag ys' (fun z hz => (h z (List.mem_cons_of_mem _ hz)).2)]
    | cons x xs' =>
      rw [mergeList_cons_cons, mergeList_cons_cons,
        (h y (List.mem_cons_self _ _)).1 x,
        ih (fun z hz => h z (List.mem_cons_of_mem _ hz)) xs']

lemma absorb_scalar (a : Json) (h1 : ∀ b, a ≠ Json.obj b) (h2 : ∀ ys, a ≠ Json.arr ys) :
    (∀ p, jsonMerge (jsonMerge p a) a = jsonMerge p a) ∧ jsonMerge a a = a := by
  constructor
  · intro p
    rw [jsonMerge_scalar_src p a h1 h2, jsonMerge_scalar_src a a h1 h2]
  · rw [jsonMerge_scalar_src a a h1 h2]

lemma jsonMerge_absorb_bounded : ∀ n : Nat, ∀ a : Json, sizeOf a ≤ n →
    jsonWF a = true →
    (∀ p, jsonMerge (jsonMerge p a) a = jsonMerge p a) ∧ jsonMerge a a = a := by
  intro n
  induction n with
  | zero =>
    intro a ha _
    exfalso
    have : 0 < sizeOf a := by cases a <;> simp_arith
    omega
  | succ n ih =>
    intro a hsize hwf
    cases a with
    | null => exact absorb_scalar _ (fun _ => by simp) (fun _ => by simp)
    | bool b2 => exact absorb_scalar _ (fun _ => by simp) (fun _ => by simp)
    | num n2 => exact absorb_scalar _ (fun _ => by simp) (fun _ => by simp)
    | str s2 => exact absorb_scalar _ (fun _ => by simp) (fun _ => by simp)
    | arr ys =>
      have hlw : listWF ys = true := (jsonWF_arr ys).mp hwf
      have helem : ∀ y ∈ ys,
          (∀ v, jsonMerge (jsonMerge v y) y = jsonMerge v y) ∧ jsonMerge y y = y := by
        intro y hy
        have hs : sizeOf y < sizeOf (Json.arr ys) := sizeOf_elem_lt_arr ys y hy
        exact ih y (by omega) (listWF_mem ys y hlw hy)
      have hdiag : ∀ y ∈ ys, jsonMerge y y = y := fun y hy => (helem y hy).2
      constructor
      · intro p
        cases p with
        | arr xs =>
          rw [jsonMerge_arr_arr, jsonMerge_arr_arr, mergeList_absorb ys helem xs]
        | null =>
          rw [jsonMerge_not_arr_src_arr Json.null ys (fun _ => by simp),
            jsonMerge_arr_arr, mergeList_diag ys hdiag]
        | bool b2 =>
          rw [jsonMerge_not_arr_src_arr (Json.bool b2) ys (fun _ => by simp),
            jsonMerge_arr_arr, mergeList_diag ys hdiag]
        | num n2 =>
          rw [jsonMerge_not_arr_src_arr (Json.num n2) ys (fun _ => by simp),
            jsonMerge_arr_arr, mergeList_diag ys hdiag]
        | str s2 =>
          rw [jsonMerge_not_arr_src_arr (Json.str s2) ys (fun _ => by simp),
            jsonMerge_arr_arr, mergeList_diag ys hdiag]
        | obj a2 =>
          rw [jsonMerge_not_arr_src_arr (Json.obj a2) ys (fun _ => by simp),
            jsonMerge_arr_arr, mergeList_diag ys hdiag]
      · rw [jsonMerge_arr_arr, mergeList_diag ys hdiag]
    | obj b =>
      have hof := (jsonWF_obj b).mp hwf
      have helem : ∀ kw ∈ b,
          (∀ v, jsonMerge (jsonMerge v kw.2) kw.2 = jsonMerge v kw.2) ∧
          jsonMerge kw.2 kw.2 = kw.2 := by
        intro kw hkw
        obtain ⟨k, w⟩ := kw
        have hs : sizeOf w < sizeOf (Json.obj b) := sizeOf_val_lt_of_mem_fields b k w hkw
        exact ih w (by omega) (fieldsWF_mem b k w hof.2 hkw)
      have hdiagF : mergeFields b b = b := by
        apply mergeFields_absorb
        intro kw hkw
        obtain ⟨k, w⟩ := kw
        exact ⟨w, findEntry_of_mem_nodup b k w hof.1 hkw, (helem (k, w) hkw).2⟩
      have hMM : ∀ a0, mergeFields (mergeFields a0 b) b = mergeFields a0 b := by
        intro a0
        apply mergeFields_absorb
        intro kw hkw
        obtain ⟨k, w⟩ := kw
        have hfe := findEntry_mergeFields b a0 k w hkw hof.1
        rcases hv : findEntry a0 k with _ | v
        · rw [hv] at hfe
          exact ⟨w, by simpa using hfe, (helem (k, w) hkw).2⟩
        · rw [hv] at hfe
          exact ⟨jsonMerge v w, by simpa using hfe, (helem (k, w) hkw).1 v⟩
      constructor
      · intro p
        cases p with
        | obj a0 =>
          rw [jsonMerge_obj_obj, jsonMerge_obj_obj, hMM a0]
        | null =>
          rw [jsonMerge_not_obj_src_obj Json.null b (fun _ => by simp),
            jsonMerge_obj_obj, hdiagF]
        | bool b2 =>
          rw [jsonMerge_not_obj_src_obj (Json.bool b2) b (fun _ => by simp),
            jsonMerge_obj_obj, hdiagF]
        | num n2 =>
          rw [jsonMerge_not_obj_src_obj (Json.num n2) b (fun _ => by simp),
            jsonMerge_obj_obj, hdiagF]
        | str s2 =>
          rw [jsonMerge_not_obj_src_obj (Json.str s2) b (fun _ => by simp),
            jsonMerge_obj_obj, hdiagF]
        | arr xs =>
          rw [jsonMerge_not_obj_src_obj (Json.arr xs) b (fun _ => by simp),
            jsonMerge_obj_obj, hdiagF]
      · rw [jsonMerge_obj_obj, hdiagF]

/-- Claim C6: the manifest patch is idempotent on the fragment keys: for a
well-formed fragment (distinct keys, as any parsed JSON file has),
merging the fragment twice and then sorting and serializing yields
exactly the same output as merging once, for every manifest. -/
theorem manifestMerge_idempotent (p a : Json) (h : jsonWF a = true) :
    stringify "" (sortPackageJson (jsonMerge (jsonMerge p a) a)) =
      stringify "" (sortPackageJson (jsonMerge p a)) := by
  rw [(jsonMerge_absorb_bounded (sizeOf a) a (Nat.le_refl _) h).1 p]

/-- Claim C6 (witness): idempotence at a concrete manifest and fragment. -/
theorem manifestMerge_idempotent_witness :
    jsonWF (Json.obj [("scripts", Json.obj [("test", Json.str "vitest")])]) = true ∧
    stringify "" (sortPackageJson (jsonMerge (jsonMerge
        (Json.obj [("name", Json.str "x"), ("scripts", Json.obj [("lint", Json.str "eslint")])])
        (Json.obj [("scripts", Json.obj [("test", Json.str "vitest")])]))
        (Json.obj [("scripts", Json.obj [("test", Json.str "vitest")])]))) =
      stringify "" (sortPackageJson (jsonMerge
        (Json.obj [("name", Json.str "x"), ("scripts", Json.obj [("lint", Json.str "eslint")])])
        (Json.obj [("scripts", Json.obj [("test", Json.str "vitest")])]))) :=
  ⟨by simp [jsonWF, fieldsWF, listWF, nodupKeys],
   manifestMerge_idempotent
     (Json.obj [("name", Json.str "x"), ("scripts", Json.obj [("lint", Json.str "eslint")])])
     (Json.obj [("scripts", Json.obj [("test", Json.str "vitest")])])
     (by simp [jsonWF, fieldsWF, listWF, nodupKeys])⟩
